import Mathlib

/-!
Verification of the keymap optimizer core (keymap_optimizer.py).

The program builds a CP-SAT boolean model for a quadratic assignment
problem: assignment variables for (letter, key), linearization variables
for (ordered letter pair, key pair with k1 < k2), an exactly-one
constraint per letter, an at-most-one constraint per key, linking
constraints tying each linearization variable to the conjunction of its
two assignment variables, and a minimized weighted objective whose
coefficients are bigram frequencies times penalties.  The external
solver is modelled by quantifying over all variable valuations that
satisfy the constraints of the built model.
-/

namespace KeymapOpt

/-- A valuation of the boolean variables of the built model: `assign l k`
is the value of the variable created for letter `l` at key `k`
(code line 31), `link l1 l2 k1 k2` the value of the linearization
variable created at code line 36.  Only the values at indices for which
the program creates a variable are meaningful. -/
structure CpSolution where
  assign : Char → Nat → Bool
  link : Char → Char → Nat → Nat → Bool

/-- The two linking constraints the program adds for one linearization
variable (code lines 49-50): `AddBoolAnd` enforced by the variable, and
`AddBoolOr` of the negations enforced by its negation. -/
def LinkOk (s : CpSolution) (l1 l2 : Char) (k1 k2 : Nat) : Prop :=
  (s.link l1 l2 k1 k2 = true → s.assign l1 k1 = true ∧ s.assign l2 k2 = true) ∧
  (s.link l1 l2 k1 k2 = false → s.assign l1 k1 = false ∨ s.assign l2 k2 = false)

instance (s : CpSolution) (l1 l2 : Char) (k1 k2 : Nat) :
    Decidable (LinkOk s l1 l2 k1 k2) := by
  unfold LinkOk; infer_instance

/-- The constraints the program adds to the model (code lines 38-50):
for each letter the sum of its assignment variables over all keys is 1;
for each key the sum over all letters is at most 1; and for each ordered
pair of distinct letters and each key pair `k1 < k2`, the linking
constraints `LinkOk`. -/
def Feasible (letters : List Char) (s : CpSolution) : Prop :=
  (∀ l ∈ letters, (List.range letters.length).countP (fun k => s.assign l k) = 1) ∧
  (∀ k < letters.length, letters.countP (fun l => s.assign l k) ≤ 1) ∧
  (∀ l1 ∈ letters, ∀ l2 ∈ letters, l1 ≠ l2 →
    ∀ k1 < letters.length, ∀ k2 < letters.length, k1 < k2 → LinkOk s l1 l2 k1 k2)

instance (letters : List Char) (s : CpSolution) : Decidable (Feasible letters s) := by
  unfold Feasible; infer_instance

/-- Number of occurrences of the two-character pattern `l1, l2` counted
the way Python `str.count` counts them: scanning left to right,
skipping past each match (non-overlapping).  This is exactly
`input_text.count(l1 + l2)` at code line 56. -/
def bigramCount (l1 l2 : Char) : List Char → Nat
  | a :: b :: rest =>
    if a = l1 ∧ b = l2 then bigramCount l1 l2 rest + 1
    else bigramCount l1 l2 (b :: rest)
  | _ => 0

/-- Number of adjacent positions of the text at which `l1` is
immediately followed by `l2`, counting every occurrence independently
(overlapping occurrences allowed).  This follows the wording of the
spec (section 4.1) and is compared with `bigramCount`, which is what
the code computes. -/
def specAdjacentCount (l1 l2 : Char) : List Char → Nat
  | a :: b :: rest =>
    (if a = l1 ∧ b = l2 then 1 else 0) + specAdjacentCount l1 l2 (b :: rest)
  | _ => 0

/-- The frequency the program uses for the ordered pair `(l1, l2)`:
`input_text.count(l1 + l2)` (code line 56). -/
def freq (text : List Char) (l1 l2 : Char) : Nat := bigramCount l1 l2 text

/-- The objective coefficient the program pairs with the linearization
variable of `(l1, l2, k1, k2)`: `freq * penalty2[k1][k2]` (code
line 60).  Penalty entries are modelled as rationals. -/
def coefOf (penalty : Nat → Nat → ℚ) (text : List Char) (l1 l2 : Char) (k1 k2 : Nat) : ℚ :=
  (freq text l1 l2 : ℚ) * penalty k1 k2

/-- The ordered pairs of distinct letters enumerated by
`permutations(letters, 2)` (code lines 34, 47, 55), as a list. -/
def ordPairs (letters : List Char) : List (Char × Char) :=
  (letters ×ˢ letters).filter (fun p => decide (p.1 ≠ p.2))

/-- The key pairs enumerated by `combinations(range(n), 2)` (code
lines 35, 48, 58), as a list. -/
def keyPairs (n : Nat) : List (Nat × Nat) :=
  ((List.range n) ×ˢ (List.range n)).filter (fun q => decide (q.1 < q.2))

/-- The key list `range(len(letters))` the program uses as the set of
positions (code lines 30, 35, 43, 74). -/
def keys (letters : List Char) : List Nat := List.range letters.length

/-- The objective of the built model as a function of an arbitrary
frequency table: the weighted sum, over ordered letter pairs and key
pairs `k1 < k2`, of `frequency * penalty[k1][k2]` times the value of
the linearization variable (code lines 52-61). -/
def objectiveF (penalty : Nat → Nat → ℚ) (letters : List Char)
    (fr : Char → Char → ℚ) (s : CpSolution) : ℚ :=
  ((ordPairs letters).map (fun p =>
    ((keyPairs letters.length).map (fun q =>
      fr p.1 p.2 * penalty q.1 q.2 *
        (if s.link p.1 p.2 q.1 q.2 then 1 else 0))).sum)).sum

/-- The objective of the model the program builds, with the frequencies
taken from the corpus (code lines 52-61). -/
def objective (penalty : Nat → Nat → ℚ) (letters : List Char)
    (text : List Char) (s : CpSolution) : ℚ :=
  objectiveF penalty letters (fun l1 l2 => (freq text l1 l2 : ℚ)) s

/-- The position of letter `l` read off the solved assignment
variables: the key (below `len(letters)`) whose assignment variable for
`l` is true.  Under the exactly-one constraint there is exactly one
such key. -/
def posOf (letters : List Char) (s : CpSolution) (l : Char) : Nat :=
  ((List.range letters.length).filter (fun k => s.assign l k)).headD 0

/-- The decoding loop of the program (code lines 72-77): `result` is a
list indexed by key, and slot `k` receives the last letter of `letters`
whose assignment variable at `k` is true, staying `None` when there is
none. -/
def decode (letters : List Char) (s : CpSolution) : List (Option Char) :=
  (List.range letters.length).map (fun k =>
    (letters.filter (fun l => s.assign l k)).getLast?)

/-- The status reported by the CP-SAT solver. -/
inductive CpStatus where
  | unknown
  | modelInvalid
  | feasible
  | infeasible
  | optimal
deriving DecidableEq

/-- The value returned by `optimize_keymap` after solving (code
lines 71-80): the decoded array when the status is OPTIMAL or FEASIBLE,
`None` otherwise. -/
def optimizeResult (letters : List Char) (s : CpSolution) (status : CpStatus) :
    Option (List (Option Char)) :=
  if status = CpStatus.optimal ∨ status = CpStatus.feasible then
    some (decode letters s)
  else
    none

/-- The quantity the spec claims the objective equals: the sum over all
ordered pairs of distinct letters of
`frequency * penalty[pos l1][pos l2]` with positions read off the
decoded solution, i.e. both typing directions of every placed pair. -/
def bothDirSum (penalty : Nat → Nat → ℚ) (letters : List Char)
    (text : List Char) (s : CpSolution) : ℚ :=
  ((ordPairs letters).map (fun p =>
    (freq text p.1 p.2 : ℚ) *
      penalty (posOf letters s p.1) (posOf letters s p.2))).sum

/-- The quantity the objective of the built model actually equals on a
feasible valuation: only the pairs placed in increasing key order
contribute, with `penalty[pos l1][pos l2]` for `pos l1 < pos l2`. -/
def lowDirSum (penalty : Nat → Nat → ℚ) (letters : List Char)
    (text : List Char) (s : CpSolution) : ℚ :=
  ((ordPairs letters).map (fun p =>
    if posOf letters s p.1 < posOf letters s p.2 then
      (freq text p.1 p.2 : ℚ) *
        penalty (posOf letters s p.1) (posOf letters s p.2)
    else 0)).sum

/-! Concrete instances used for counterexamples and witnesses. -/

/-- Two-letter alphabet used in concrete checks. -/
def exLetters : List Char := ['A', 'B']

/-- Corpus "AB" used in the counterexample to objective consistency. -/
def exText : List Char := ['A', 'B']

/-- All-ones penalty matrix used in concrete checks. -/
def exPenalty : Nat → Nat → ℚ := fun _ _ => 1

/-- Assignment placing letter A at key 1 and letter B at key 0. -/
def exAssign : Char → Nat → Bool := fun l k =>
  (l == 'A' && k == 1) || (l == 'B' && k == 0)

/-- A feasible valuation of the two-letter model: A at key 1, B at
key 0, with every linearization variable set to the conjunction of its
two assignment variables. -/
def exSol : CpSolution :=
  ⟨exAssign, fun l1 l2 k1 k2 => exAssign l1 k1 && exAssign l2 k2⟩

/-- One-letter alphabet used in the decoder check. -/
def unLetters : List Char := ['A']

/-- A degenerate valuation with every variable false: no letter is
assigned to any key. -/
def unSol : CpSolution := ⟨fun _ _ => false, fun _ _ _ _ => false⟩

/-- Corpus "ABABAB" of the small fixed instance of the spec. -/
def abText : List Char := ['A', 'B', 'A', 'B', 'A', 'B']

/-! Helper lemmas about the constraint system. -/

/-- On any valuation satisfying the linking constraints, the
linearization variable equals the conjunction of its two assignment
variables. -/
theorem link_eq_and {letters : List Char} {s : CpSolution} (hf : Feasible letters s)
    {l1 l2 : Char} (hl1 : l1 ∈ letters) (hl2 : l2 ∈ letters) (hne : l1 ≠ l2)
    {k1 k2 : Nat} (hk1 : k1 < letters.length) (hk2 : k2 < letters.length)
    (hlt : k1 < k2) :
    s.link l1 l2 k1 k2 = (s.assign l1 k1 && s.assign l2 k2) := by
  obtain ⟨h1, h2⟩ := hf.2.2 l1 hl1 l2 hl2 hne k1 hk1 k2 hk2 hlt
  cases h : s.link l1 l2 k1 k2 with
  | false => rcases h2 h with h3 | h3 <;> simp [h3]
  | true => obtain ⟨h3, h4⟩ := h1 h; simp [h3, h4]

/-- Under the exactly-one constraint, the keys at which letter `l` is
assigned form the one-element list `[posOf letters s l]`. -/
theorem assignFilter_eq {letters : List Char} {s : CpSolution} (hf : Feasible letters s)
    {l : Char} (hl : l ∈ letters) :
    (List.range letters.length).filter (fun k => s.assign l k) = [posOf letters s l] := by
  have h := hf.1 l hl
  rw [List.countP_eq_length_filter] at h
  obtain ⟨k, hk⟩ := List.length_eq_one.mp h
  rw [hk]
  simp [posOf, hk]

/-- The decoded position of every letter is a valid key index. -/
theorem posOf_lt {letters : List Char} {s : CpSolution} (hf : Feasible letters s)
    {l : Char} (hl : l ∈ letters) : posOf letters s l < letters.length := by
  have hmem : posOf letters s l ∈
      (List.range letters.length).filter (fun k => s.assign l k) := by
    rw [assignFilter_eq hf hl]; exact List.mem_singleton.mpr rfl
  exact List.mem_range.mp (List.mem_filter.mp hmem).1

/-- The assignment variable of every letter at its decoded position is
true. -/
theorem assign_posOf {letters : List Char} {s : CpSolution} (hf : Feasible letters s)
    {l : Char} (hl : l ∈ letters) : s.assign l (posOf letters s l) = true := by
  have hmem : posOf letters s l ∈
      (List.range letters.length).filter (fun k => s.assign l k) := by
    rw [assignFilter_eq hf hl]; exact List.mem_singleton.mpr rfl
  exact (List.mem_filter.mp hmem).2

/-- Within the key range, the assignment variable of `l` is true
exactly at the decoded position of `l`. -/
theorem assign_iff_posOf {letters : List Char} {s : CpSolution} (hf : Feasible letters s)
    {l : Char} (hl : l ∈ letters) {k : Nat} (hk : k < letters.length) :
    s.assign l k = true ↔ k = posOf letters s l := by
  constructor
  · intro ha
    have hmem : k ∈ (List.range letters.length).filter (fun k => s.assign l k) :=
      List.mem_filter.mpr ⟨List.mem_range.mpr hk, ha⟩
    rw [assignFilter_eq hf hl] at hmem
    simpa using hmem
  · rintro rfl
    exact assign_posOf hf hl

/-- Membership characterization of the ordered letter pairs. -/
theorem mem_ordPairs {letters : List Char} {p : Char × Char} :
    p ∈ ordPairs letters ↔ p.1 ∈ letters ∧ p.2 ∈ letters ∧ p.1 ≠ p.2 := by
  cases p with
  | mk a b => simp [ordPairs, List.mem_filter, List.mem_product, and_assoc]

/-- Membership characterization of the key pairs. -/
theorem mem_keyPairs {n : Nat} {q : Nat × Nat} :
    q ∈ keyPairs n ↔ q.1 < n ∧ q.2 < n ∧ q.1 < q.2 := by
  cases q with
  | mk a b => simp [keyPairs, List.mem_filter, List.mem_product, and_assoc]

/-- The key-pair list has no duplicates. -/
theorem keyPairs_nodup (n : Nat) : (keyPairs n).Nodup :=
  ((List.nodup_range n).product (List.nodup_range n)).filter _

/-- Summing a function that vanishes away from a single point over a
duplicate-free list picks out the value at that point when present. -/
theorem sum_map_ite_single {α : Type} [DecidableEq α] (v : α → ℚ) (x0 : α)
    (L : List α) (h : L.Nodup) :
    (L.map (fun x => if x = x0 then v x else 0)).sum = if x0 ∈ L then v x0 else 0 := by
  induction L with
  | nil => simp
  | cons a L ih =>
    rw [List.nodup_cons] at h
    obtain ⟨ha, hL⟩ := h
    simp only [List.map_cons, List.sum_cons, List.mem_cons]
    by_cases hx : a = x0
    · subst hx
      rw [if_pos rfl, ih hL, if_neg ha, if_pos (Or.inl rfl), add_zero]
    · rw [if_neg hx, ih hL, zero_add]
      by_cases hmem : x0 ∈ L
      · rw [if_pos hmem, if_pos (Or.inr hmem)]
      · rw [if_neg hmem, if_neg]
        rintro (rfl | hc)
        · exact hx rfl
        · exact hmem hc

/-! Claim theorems. -/

/-- C2: in every feasible valuation of the built model, for all ordered
pairs of distinct letters and all key pairs `k1 < k2`, the
linearization variable is true exactly when both assignment variables
are true. -/
theorem link_iff_assign_pair (letters : List Char) (s : CpSolution)
    (hf : Feasible letters s) :
    ∀ l1 ∈ letters, ∀ l2 ∈ letters, l1 ≠ l2 →
      ∀ k1 < letters.length, ∀ k2 < letters.length, k1 < k2 →
        (s.link l1 l2 k1 k2 = true ↔
          (s.assign l1 k1 = true ∧ s.assign l2 k2 = true)) := by
  intro l1 hl1 l2 hl2 hne k1 hk1 k2 hk2 hlt
  rw [link_eq_and hf hl1 hl2 hne hk1 hk2 hlt]
  exact iff_of_eq (Bool.and_eq_true _ _)

/-- Witness for C2 at the concrete two-letter feasible valuation. -/
theorem link_iff_assign_pair_witness :
    exSol.link 'A' 'B' 0 1 = true ↔
      (exSol.assign 'A' 0 = true ∧ exSol.assign 'B' 1 = true) :=
  link_iff_assign_pair exLetters exSol (by decide) 'A' (by decide) 'B' (by decide)
    (by decide) 0 (by decide) 1 (by decide) (by decide)

/-- C5: the program returns `None` exactly when the status is neither
OPTIMAL nor FEASIBLE, and on OPTIMAL or FEASIBLE it returns the decoded
array. -/
theorem optimizeResult_spec (letters : List Char) (s : CpSolution) (st : CpStatus) :
    (optimizeResult letters s st = none ↔
      (st ≠ CpStatus.optimal ∧ st ≠ CpStatus.feasible)) ∧
    ((st = CpStatus.optimal ∨ st = CpStatus.feasible) →
      optimizeResult letters s st = some (decode letters s)) := by
  cases st <;> simp [optimizeResult]

/-- Witness for C5: on status OPTIMAL the decoded array is returned. -/
theorem optimizeResult_spec_witness :
    optimizeResult exLetters exSol CpStatus.optimal = some (decode exLetters exSol) :=
  (optimizeResult_spec exLetters exSol CpStatus.optimal).2 (Or.inl rfl)

/-- C6 counterexample: on the corpus "ABABAB" the extracted frequency
of the ordered pair (A, B) is not 2. -/
theorem freq_abab_ne_two : ¬ (freq abText 'A' 'B' = 2) := by decide

/-- C6 amended: on the corpus "ABABAB" the extracted frequencies are 3
for (A, B) and 2 for (B, A). -/
theorem freq_abab_values : freq abText 'A' 'B' = 3 ∧ freq abText 'B' 'A' = 2 := by
  decide

/-- C8: an empty corpus gives zero frequency for every ordered pair,
zero objective coefficients, objective value 0 on every valuation, and
hence every valuation (in particular every feasible one) minimizes the
objective. -/
theorem empty_corpus_objective (penalty : Nat → Nat → ℚ) (letters : List Char) :
    (∀ l1 l2 : Char, freq [] l1 l2 = 0) ∧
    (∀ (l1 l2 : Char) (k1 k2 : Nat), coefOf penalty [] l1 l2 k1 k2 = 0) ∧
    (∀ s : CpSolution, objective penalty letters [] s = 0) ∧
    (∀ s t : CpSolution,
      objective penalty letters [] s ≤ objective penalty letters [] t) := by
  have hfreq : ∀ l1 l2 : Char, freq ([] : List Char) l1 l2 = 0 := fun _ _ => rfl
  have hobj : ∀ s : CpSolution, objective penalty letters [] s = 0 := by
    intro s
    unfold objective objectiveF
    apply List.sum_eq_zero
    intro x hx
    obtain ⟨p, hp, rfl⟩ := List.mem_map.mp hx
    apply List.sum_eq_zero
    intro y hy
    obtain ⟨q, hq, rfl⟩ := List.mem_map.mp hy
    simp [hfreq]
  refine ⟨hfreq, ?_, hobj, ?_⟩
  · intro l1 l2 k1 k2
    simp [coefOf, hfreq]
  · intro s t
    rw [hobj s, hobj t]

/-- Dropping a head character that differs from `l1` does not change
the overlapping pair count. -/
theorem specAdjacentCount_cons_of_ne (l1 l2 b : Char) (hb : b ≠ l1) (rest : List Char) :
    specAdjacentCount l1 l2 (b :: rest) = specAdjacentCount l1 l2 rest := by
  cases rest with
  | nil => rfl
  | cons c r =>
    simp only [specAdjacentCount]
    rw [if_neg (fun h => hb h.1), zero_add]

/-- C4: for distinct characters, the non-overlapping count computed by
Python `str.count` (what the code uses as frequency) equals the
overlapping-allowed adjacent pair count described by the spec. -/
theorem freq_eq_specAdjacentCount (l1 l2 : Char) (text : List Char) (hne : l1 ≠ l2) :
    freq text l1 l2 = specAdjacentCount l1 l2 text := by
  suffices h : ∀ n (t : List Char), t.length ≤ n →
      bigramCount l1 l2 t = specAdjacentCount l1 l2 t from
    h text.length text le_rfl
  intro n
  induction n with
  | zero =>
    intro t ht
    rw [List.eq_nil_of_length_eq_zero (Nat.le_zero.mp ht)]
    rfl
  | succ n ih =>
    intro t ht
    match t with
    | [] => rfl
    | [a] => rfl
    | a :: b :: rest =>
      have hlen1 : (b :: rest).length ≤ n := by
        simp only [List.length_cons] at ht ⊢
        omega
      have hlen2 : rest.length ≤ n := le_trans (Nat.le_succ _) hlen1
      by_cases hab : a = l1 ∧ b = l2
      · have hb : b ≠ l1 := by
          rw [hab.2]
          intro h
          exact hne h.symm
        calc bigramCount l1 l2 (a :: b :: rest)
            = bigramCount l1 l2 rest + 1 := by simp [bigramCount, hab]
          _ = specAdjacentCount l1 l2 rest + 1 := by rw [ih rest hlen2]
          _ = specAdjacentCount l1 l2 (b :: rest) + 1 := by
              rw [specAdjacentCount_cons_of_ne l1 l2 b hb rest]
          _ = specAdjacentCount l1 l2 (a :: b :: rest) := by
              simp [specAdjacentCount, hab, Nat.add_comm]
      · calc bigramCount l1 l2 (a :: b :: rest)
            = bigramCount l1 l2 (b :: rest) := by simp [bigramCount, hab]
          _ = specAdjacentCount l1 l2 (b :: rest) := ih _ hlen1
          _ = specAdjacentCount l1 l2 (a :: b :: rest) := by
              simp [specAdjacentCount, hab]

/-- Witness for C4 on the corpus "ABABAB" and the pair (A, B). -/
theorem freq_eq_specAdjacentCount_witness :
    freq abText 'A' 'B' = specAdjacentCount 'A' 'B' abText :=
  freq_eq_specAdjacentCount 'A' 'B' abText (by decide)

/-- A predicate holding at two distinct members of a list is counted at
least twice. -/
theorem two_le_countP_of_two_mem {letters : List Char} (p : Char → Bool) {l l' : Char}
    (hl : l ∈ letters) (hl' : l' ∈ letters) (hne : l ≠ l')
    (hp : p l = true) (hp' : p l' = true) : 2 ≤ letters.countP p := by
  rw [List.countP_eq_length_filter]
  have h1 : l ∈ letters.filter p := List.mem_filter.mpr ⟨hl, hp⟩
  have h2 : l' ∈ letters.filter p := List.mem_filter.mpr ⟨hl', hp'⟩
  have hsub : ({l, l'} : Finset Char) ⊆ (letters.filter p).toFinset := by
    intro x hx
    rw [List.mem_toFinset]
    rcases Finset.mem_insert.mp hx with rfl | hx
    · exact h1
    · rw [Finset.mem_singleton.mp hx]
      exact h2
  calc 2 = ({l, l'} : Finset Char).card := (Finset.card_pair hne).symm
    _ ≤ (letters.filter p).toFinset.card := Finset.card_le_card hsub
    _ ≤ (letters.filter p).length := List.toFinset_card_le _

/-- The at-most-one constraint per key makes the decoded positions of
distinct letters distinct. -/
theorem posOf_injOn {letters : List Char} {s : CpSolution} (hf : Feasible letters s) :
    ∀ l ∈ letters, ∀ l' ∈ letters, posOf letters s l = posOf letters s l' → l = l' := by
  intro l hl l' hl' heq
  by_contra hne
  have hk := posOf_lt hf hl
  have h1 := assign_posOf hf hl
  have h2 := assign_posOf hf hl'
  rw [← heq] at h2
  have h3 := two_le_countP_of_two_mem (fun x => s.assign x (posOf letters s l))
    hl hl' hne h1 h2
  have h4 := hf.2.1 (posOf letters s l) hk
  omega

/-- Counting argument: with as many keys as (distinct) letters, every
key receives some letter. -/
theorem exists_assign_of_key {letters : List Char} {s : CpSolution}
    (hf : Feasible letters s) (hnd : letters.Nodup) {k : Nat}
    (hk : k < letters.length) : ∃ l ∈ letters, s.assign l k = true := by
  have hcard : letters.toFinset.card = letters.length := List.toFinset_card_of_nodup hnd
  have hinj : Set.InjOn (posOf letters s) letters.toFinset := by
    intro a ha b hb hab
    exact posOf_injOn hf a (List.mem_toFinset.mp ha) b (List.mem_toFinset.mp hb) hab
  have hsub : letters.toFinset.image (posOf letters s) ⊆ Finset.range letters.length := by
    intro x hx
    obtain ⟨l, hl, rfl⟩ := Finset.mem_image.mp hx
    exact Finset.mem_range.mpr (posOf_lt hf (List.mem_toFinset.mp hl))
  have hcard2 : (letters.toFinset.image (posOf letters s)).card = letters.length := by
    rw [Finset.card_image_of_injOn hinj, hcard]
  have heq : letters.toFinset.image (posOf letters s) = Finset.range letters.length :=
    Finset.eq_of_subset_of_card_le hsub (by rw [hcard2, Finset.card_range])
  have hkmem : k ∈ letters.toFinset.image (posOf letters s) := by
    rw [heq]
    exact Finset.mem_range.mpr hk
  obtain ⟨l, hl, hpos⟩ := Finset.mem_image.mp hkmem
  refine ⟨l, List.mem_toFinset.mp hl, ?_⟩
  rw [← hpos]
  exact assign_posOf hf (List.mem_toFinset.mp hl)

/-- Every key receives exactly one letter. -/
theorem key_countP_eq_one {letters : List Char} {s : CpSolution}
    (hf : Feasible letters s) (hnd : letters.Nodup) {k : Nat}
    (hk : k < letters.length) :
    letters.countP (fun l => s.assign l k) = 1 := by
  have h1 := hf.2.1 k hk
  have h2 : 0 < letters.countP (fun l => s.assign l k) := by
    obtain ⟨l, hl, ha⟩ := exists_assign_of_key hf hnd hk
    exact List.countP_pos_iff.mpr ⟨l, hl, ha⟩
  omega

/-- The letters assigned to a key form a one-element list. -/
theorem filter_letters_singleton {letters : List Char} {s : CpSolution}
    (hf : Feasible letters s) (hnd : letters.Nodup) {k : Nat}
    (hk : k < letters.length) :
    ∃ l0, l0 ∈ letters ∧ s.assign l0 k = true ∧
      letters.filter (fun l => s.assign l k) = [l0] := by
  have h := key_countP_eq_one hf hnd hk
  rw [List.countP_eq_length_filter] at h
  obtain ⟨l0, hl0⟩ := List.length_eq_one.mp h
  have hmem : l0 ∈ letters.filter (fun l => s.assign l k) := by
    rw [hl0]
    exact List.mem_singleton.mpr rfl
  obtain ⟨hmem1, hmem2⟩ := List.mem_filter.mp hmem
  exact ⟨l0, hmem1, hmem2, hl0⟩

/-- Indexing the decoded array at a valid key gives the last matching
letter of the filter at that key. -/
theorem decode_getD (letters : List Char) (s : CpSolution) {k : Nat}
    (hk : k < letters.length) :
    (decode letters s).getD k none =
      (letters.filter (fun l => s.assign l k)).getLast? := by
  unfold decode
  rw [List.getD_eq_getElem?_getD, List.getElem?_map, List.getElem?_range hk]
  rfl

/-- Every valid slot of the decoded array holds the unique letter
assigned to that key. -/
theorem decode_slot_eq {letters : List Char} {s : CpSolution}
    (hf : Feasible letters s) (hnd : letters.Nodup) {k : Nat}
    (hk : k < letters.length) :
    ∃ l0, l0 ∈ letters ∧ s.assign l0 k = true ∧
      (decode letters s).getD k none = some l0 := by
  obtain ⟨l0, h1, h2, h3⟩ := filter_letters_singleton hf hnd hk
  refine ⟨l0, h1, h2, ?_⟩
  rw [decode_getD letters s hk, h3]
  rfl

/-- C3: on every feasible valuation of the model built for
duplicate-free letters, the decoded array has the length of the
alphabet, no slot is empty, and every letter occupies exactly one
slot. -/
theorem decode_bijection (letters : List Char) (s : CpSolution)
    (hnd : letters.Nodup) (hf : Feasible letters s) :
    (decode letters s).length = letters.length ∧
    (∀ k < letters.length, (decode letters s).getD k none ≠ none) ∧
    (∀ l ∈ letters, (decode letters s).count (some l) = 1) := by
  refine ⟨by simp [decode], ?_, ?_⟩
  · intro k hk
    obtain ⟨l0, _, _, h3⟩ := decode_slot_eq hf hnd hk
    rw [h3]
    simp
  · intro l hl
    have hc : ∀ k ∈ List.range letters.length,
        (((letters.filter (fun x => s.assign x k)).getLast? == some l)) =
          s.assign l k := by
      intro k hkmem
      have hk := List.mem_range.mp hkmem
      obtain ⟨l0, h1, h2, h3⟩ := filter_letters_singleton hf hnd hk
      rw [h3]
      cases ha : s.assign l k with
      | true =>
        have hmem : l ∈ letters.filter (fun x => s.assign x k) :=
          List.mem_filter.mpr ⟨hl, ha⟩
        rw [h3] at hmem
        have : l = l0 := by simpa using hmem
        subst this
        simp
      | false =>
        have hne : l0 ≠ l := by
          intro h
          rw [h] at h2
          rw [h2] at ha
          cases ha
        simp [hne]
    rw [List.count_eq_countP]
    unfold decode
    rw [List.countP_map]
    have hpq : ∀ k ∈ List.range letters.length,
        (((· == some l) ∘ fun k =>
          (letters.filter (fun x => s.assign x k)).getLast?) k : Bool) ↔
          s.assign l k := by
      intro k hkmem
      simp only [Function.comp_apply]
      rw [hc k hkmem]
    rw [List.countP_congr hpq]
    exact hf.1 l hl

/-- Witness for C3 at the concrete two-letter feasible valuation. -/
theorem decode_bijection_witness :
    (decode exLetters exSol).length = exLetters.length :=
  (decode_bijection exLetters exSol (by decide) (by decide)).1

/-- C10: the key set the program builds is `range(len(letters))`, its
size equals the alphabet size by construction, and on every feasible
valuation the constraints force every key to receive exactly one
letter. -/
theorem keys_bijection (letters : List Char) (s : CpSolution)
    (hnd : letters.Nodup) (hf : Feasible letters s) :
    keys letters = List.range letters.length ∧
    (keys letters).length = letters.length ∧
    (∀ k < letters.length, letters.countP (fun l => s.assign l k) = 1) := by
  refine ⟨rfl, by simp [keys], ?_⟩
  intro k hk
  exact key_countP_eq_one hf hnd hk

/-- Witness for C10 at the concrete two-letter feasible valuation. -/
theorem keys_bijection_witness :
    (keys exLetters).length = exLetters.length :=
  (keys_bijection exLetters exSol (by decide) (by decide)).2.1

/-- C7 counterexample: with every assignment variable false, the slot
of the only key stays unset, yet the partial array is returned as the
normal result of the OPTIMAL branch. -/
theorem decode_unfilled_returned :
    (decode unLetters unSol).getD 0 (some 'A') = none ∧
    optimizeResult unLetters unSol CpStatus.optimal = some (decode unLetters unSol) := by
  decide

/-- C7 amended: when the solver status is OPTIMAL or FEASIBLE and no
assignment variable is true at some key, the decoder leaves that slot
`None` and the partial array is returned as the normal result; no
inconsistency is detected. -/
theorem decode_unfilled (letters : List Char) (s : CpSolution) (st : CpStatus) (k : Nat)
    (hst : st = CpStatus.optimal ∨ st = CpStatus.feasible)
    (hk : k < letters.length)
    (hempty : ∀ l ∈ letters, s.assign l k = false) :
    optimizeResult letters s st = some (decode letters s) ∧
    (decode letters s).getD k none = none := by
  constructor
  · unfold optimizeResult
    rcases hst with rfl | rfl <;> simp
  · rw [decode_getD letters s hk]
    have hnil : letters.filter (fun l => s.assign l k) = [] := by
      rw [List.filter_eq_nil_iff]
      intro a ha
      simp [hempty a ha]
    rw [hnil]
    rfl

/-- Witness for the amended C7 at the degenerate all-false valuation. -/
theorem decode_unfilled_witness :
    optimizeResult unLetters unSol CpStatus.optimal = some (decode unLetters unSol) ∧
    (decode unLetters unSol).getD 0 none = none :=
  decode_unfilled unLetters unSol CpStatus.optimal 0 (Or.inl rfl) (by decide) (by decide)

/-- C1 counterexample: on the two-letter instance with corpus "AB",
all-ones penalties, and the feasible valuation placing A at key 1 and B
at key 0, the objective of the built model is 0 while the sum over both
typing directions computed from the decoded solution is 1. -/
theorem objective_ne_bothDirSum :
    exLetters.Nodup ∧ Feasible exLetters exSol ∧
    objective exPenalty exLetters exText exSol ≠
      bothDirSum exPenalty exLetters exText exSol := by
  refine ⟨by decide, by decide, ?_⟩
  decide!

/-- C1 amended: on every feasible valuation the model objective equals
the sum over ordered pairs of distinct letters placed in increasing key
order of `frequency * penalty[pos l1][pos l2]`; the pairs placed in
decreasing key order contribute nothing. -/
theorem objective_eq_lowDirSum (penalty : Nat → Nat → ℚ) (letters : List Char)
    (text : List Char) (s : CpSolution) (hf : Feasible letters s) :
    objective penalty letters text s = lowDirSum penalty letters text s := by
  unfold objective objectiveF lowDirSum
  apply congrArg List.sum
  apply List.map_congr_left
  intro p hp
  obtain ⟨hp1, hp2, hp3⟩ := mem_ordPairs.mp hp
  have hterm : ∀ q ∈ keyPairs letters.length,
      ((freq text p.1 p.2 : ℚ) * penalty q.1 q.2 *
        (if s.link p.1 p.2 q.1 q.2 then 1 else 0)) =
      (if q = (posOf letters s p.1, posOf letters s p.2) then
        (freq text p.1 p.2 : ℚ) * penalty q.1 q.2 else 0) := by
    intro q hq
    obtain ⟨hq1, hq2, hq3⟩ := mem_keyPairs.mp hq
    rw [link_eq_and hf hp1 hp2 hp3 hq1 hq2 hq3]
    have ha : s.assign p.1 q.1 = true ↔ q.1 = posOf letters s p.1 :=
      assign_iff_posOf hf hp1 hq1
    have hb : s.assign p.2 q.2 = true ↔ q.2 = posOf letters s p.2 :=
      assign_iff_posOf hf hp2 hq2
    by_cases h1 : q.1 = posOf letters s p.1
    · by_cases h2 : q.2 = posOf letters s p.2
      · rw [ha.mpr h1, hb.mpr h2]
        simp [Prod.ext_iff, h1, h2]
      · have e2 : s.assign p.2 q.2 = false := by
          cases hv : s.assign p.2 q.2
          · rfl
          · exact absurd (hb.mp hv) h2
        rw [e2]
        simp [Prod.ext_iff, h2]
    · have e1 : s.assign p.1 q.1 = false := by
        cases hv : s.assign p.1 q.1
        · rfl
        · exact absurd (ha.mp hv) h1
      rw [e1]
      simp [Prod.ext_iff, h1]
  rw [List.map_congr_left hterm]
  rw [sum_map_ite_single (fun q => (freq text p.1 p.2 : ℚ) * penalty q.1 q.2)
    (posOf letters s p.1, posOf letters s p.2) _ (keyPairs_nodup _)]
  have hma : posOf letters s p.1 < letters.length := posOf_lt hf hp1
  have hmb : posOf letters s p.2 < letters.length := posOf_lt hf hp2
  by_cases hab : posOf letters s p.1 < posOf letters s p.2
  · rw [if_pos (mem_keyPairs.mpr ⟨hma, hmb, hab⟩), if_pos hab]
  · rw [if_neg (fun hmem => hab (mem_keyPairs.mp hmem).2.2), if_neg hab]

/-- Witness for the amended C1 at the concrete two-letter feasible
valuation. -/
theorem objective_eq_lowDirSum_witness :
    objective exPenalty exLetters exText exSol =
      lowDirSum exPenalty exLetters exText exSol :=
  objective_eq_lowDirSum exPenalty exLetters exText exSol (by decide)

/-- C9: multiplying every frequency by a positive constant multiplies
the objective by that constant on every valuation, so both the pairwise
comparisons of objective values and the set of objective-minimizing
valuations are unchanged. -/
theorem objectiveF_scaling (penalty : Nat → Nat → ℚ) (letters : List Char)
    (fr : Char → Char → ℚ) (c : ℚ) (hc : 0 < c) :
    (∀ s : CpSolution,
      objectiveF penalty letters (fun l1 l2 => c * fr l1 l2) s =
        c * objectiveF penalty letters fr s) ∧
    (∀ s t : CpSolution,
      (objectiveF penalty letters (fun l1 l2 => c * fr l1 l2) s ≤
        objectiveF penalty letters (fun l1 l2 => c * fr l1 l2) t ↔
       objectiveF penalty letters fr s ≤ objectiveF penalty letters fr t)) ∧
    (∀ s : CpSolution,
      ((∀ t, objectiveF penalty letters (fun l1 l2 => c * fr l1 l2) s ≤
          objectiveF penalty letters (fun l1 l2 => c * fr l1 l2) t) ↔
       (∀ t, objectiveF penalty letters fr s ≤ objectiveF penalty letters fr t))) := by
  have hscale : ∀ s : CpSolution,
      objectiveF penalty letters (fun l1 l2 => c * fr l1 l2) s =
        c * objectiveF penalty letters fr s := by
    intro s
    unfold objectiveF
    rw [← List.sum_map_mul_left]
    apply congrArg List.sum
    apply List.map_congr_left
    intro p hp
    rw [← List.sum_map_mul_left]
    apply congrArg List.sum
    apply List.map_congr_left
    intro q hq
    ring
  refine ⟨hscale, ?_, ?_⟩
  · intro s t
    rw [hscale s, hscale t]
    exact mul_le_mul_left hc
  · intro s
    constructor <;> intro h t <;> have hst := h t
    · rw [hscale s, hscale t] at hst
      exact (mul_le_mul_left hc).mp hst
    · rw [hscale s, hscale t]
      exact (mul_le_mul_left hc).mpr hst

/-- Witness for C9 at the concrete instance with scaling constant 2. -/
theorem objectiveF_scaling_witness :
    objectiveF exPenalty exLetters
      (fun l1 l2 => 2 * (freq exText l1 l2 : ℚ)) exSol =
      2 * objectiveF exPenalty exLetters
        (fun l1 l2 => (freq exText l1 l2 : ℚ)) exSol :=
  (objectiveF_scaling exPenalty exLetters
    (fun l1 l2 => (freq exText l1 l2 : ℚ)) 2 (by norm_num)).1 exSol

end KeymapOpt
